import Mathlib

/-
Verification of the tailer / registry / tracker / dedup / broadcast core of
the claude-code-live repository, as a shallow embedding in Lean.

Files embedded:
  * src/claude_code_session_explorer/tailer.py      (SessionTailer)
  * src/claude_code_live/server.py                  (session registry, broadcast)
  * src/claude_code_session_explorer/summarizer/tracker.py (IdleTracker)
  * src/claude_code_session_explorer/backends/claude_code/pricing.py (usage dedup)

Conventions: file contents and strings are modelled as `List Char` (one Char
per byte of the UTF-8 text for the ASCII data handled here); `json.loads`
plus field extraction is an external collaborator and is a parameter
`parse : List Char -> Option Entry` of the tailer (returning `none` on a
JSONDecodeError); wall-clock instants are abstract `Nat` ticks.
-/

namespace CCLive

/-! ## SessionTailer (claude_code_session_explorer/tailer.py)

A parsed JSONL entry, restricted to the fields `read_new_lines` and
`_update_waiting_state` inspect: the `type` field (`obj.get("type")`, absent
field modelled as `none`) and `entry.get("message", {}).get("content", [])`.
Python `content` is either a string or a list of blocks; each block
contributes `block.get("type", "")` when it is a dict and `""` otherwise, so
blocks are modelled by that type string.  The default (missing message or
content) is the empty block list. -/

inductive Content where
  | blocks (bs : List String)
  | str (s : List Char)
  deriving DecidableEq, Repr

structure Entry where
  type : Option String
  content : Content
  deriving DecidableEq, Repr

/-- State of one `SessionTailer` instance (`__init__`):
position, incomplete-line buffer, message counter and the derived
waiting-for-input state. -/
structure SessionTailer where
  position : Nat
  buffer : List Char
  message_index : Nat
  last_message_type : Option String
  waiting_for_input : Bool
  deriving DecidableEq, Repr

/-- The freshly constructed tailer: `SessionTailer(path)`. -/
def SessionTailer.mk0 : SessionTailer :=
  { position := 0, buffer := [], message_index := 0,
    last_message_type := none, waiting_for_input := false }

/-- `SessionTailer._update_waiting_state`, line for line.  For an assistant
entry the last content block decides; for a user entry the first block
decides; a user entry whose content is an empty block list matches neither
`isinstance(content, list) and content` nor `isinstance(content, str)` and
falls through with no state change. -/
def update_waiting_state (st : SessionTailer) (entry : Entry) : SessionTailer :=
  if entry.type = some "assistant" then
    match entry.content with
    | Content.blocks bs =>
      match bs.getLast? with
      | some content_type =>
        if content_type = "tool_use" then
          { st with last_message_type := some "assistant_tool", waiting_for_input := false }
        else if content_type = "text" then
          { st with last_message_type := some "assistant_text", waiting_for_input := true }
        else
          st
      | none =>
        { st with last_message_type := some "assistant_other", waiting_for_input := false }
    | Content.str _ =>
        { st with last_message_type := some "assistant_other", waiting_for_input := false }
  else if entry.type = some "user" then
    match entry.content with
    | Content.blocks bs =>
      match bs.head? with
      | some content_type =>
        if content_type = "tool_result" then
          { st with last_message_type := some "user_tool_result", waiting_for_input := false }
        else
          { st with last_message_type := some "user_input", waiting_for_input := false }
      | none => st
    | Content.str _ =>
        { st with last_message_type := some "user_input", waiting_for_input := false }
  else st

/-- Python `str.split("\n")`: never empty, last element is the text after the
final newline. -/
def splitNL : List Char → List (List Char)
  | [] => [[]]
  | c :: cs =>
    if c = '\n' then [] :: splitNL cs
    else
      match splitNL cs with
      | [] => [[c]]
      | l :: ls => (c :: l) :: ls

/-- The whitespace characters of Python `str.strip()` (ASCII fragment). -/
def pySpace (c : Char) : Bool :=
  c = ' ' || c = '\t' || c = '\n' || c = '\r' || c = '\x0b' || c = '\x0c'

/-- Python `line.strip()`. -/
def pyStrip (s : List Char) : List Char :=
  ((s.dropWhile pySpace).reverse.dropWhile pySpace).reverse

/-- The per-line body of the `read_new_lines` loop: strip, skip empty lines,
parse (`none` = JSONDecodeError, logged and skipped), keep only user and
assistant entries. -/
def lineEntry (parse : List Char → Option Entry) (line : List Char) : Option Entry :=
  let l := pyStrip line
  if l = [] then none
  else
    match parse l with
    | none => none
    | some obj =>
      if obj.type = some "user" ∨ obj.type = some "assistant" then some obj else none

/-- The loop of `read_new_lines` over the complete lines: collect included
entries, bump `message_index` and update the waiting state per entry. -/
def processLines (parse : List Char → Option Entry) :
    List (List Char) → SessionTailer → List Entry × SessionTailer
  | [], st => ([], st)
  | l :: ls, st =>
    match lineEntry parse l with
    | none => processLines parse ls st
    | some obj =>
      let st1 := update_waiting_state { st with message_index := st.message_index + 1 } obj
      let r := processLines parse ls st1
      (obj :: r.1, r.2)

/-- `SessionTailer.read_new_lines` on a file whose current contents are
`file`.  The open/seek/read/tell prelude becomes: the new bytes are
`file.drop st.position` and the position advances to the end of what was
read (`f.tell()`; a position beyond the end of the file is preserved by
`seek`, hence the `max`).  Then: prepend the buffer, split on newline, keep
the last piece as the new buffer, process every other piece. -/
def read_new_lines (parse : List Char → Option Entry) (file : List Char)
    (st : SessionTailer) : List Entry × SessionTailer :=
  let content := file.drop st.position
  let st1 := { st with position := max st.position file.length }
  if content = [] then ([], st1)
  else
    let lines := splitNL (st1.buffer ++ content)
    let st2 := { st1 with buffer := lines.getLastD [] }
    processLines parse lines.dropLast st2

/-- `SessionTailer.read_all`: read the whole file through a fresh tailer,
then copy the fresh tailer's waiting state onto this instance. -/
def read_all (parse : List Char → Option Entry) (file : List Char)
    (st : SessionTailer) : List Entry × SessionTailer :=
  let fresh := SessionTailer.mk0
  let r := read_new_lines parse file fresh
  (r.1, { st with waiting_for_input := r.2.waiting_for_input,
                  last_message_type := r.2.last_message_type })

/-! ### Line-splitting lemmas -/

theorem splitNL_ne_nil (s : List Char) : splitNL s ≠ [] := by
  induction s with
  | nil => simp [splitNL]
  | cons c cs ih =>
    simp only [splitNL]
    split
    · simp
    · cases h : splitNL cs with
      | nil => simp
      | cons l ls => simp

/-- Prepend a list to the head element of a (nonempty) list of lists. -/
def consHead (p : List Char) : List (List Char) → List (List Char)
  | [] => [p]
  | x :: xs => (p ++ x) :: xs

theorem consHead_ne_nil (p : List Char) (L : List (List Char)) : consHead p L ≠ [] := by
  cases L <;> simp [consHead]

/-- Join two split results: the last piece of the first and the first piece
of the second belong to one line. -/
def glue : List (List Char) → List (List Char) → List (List Char)
  | [], M => M
  | [x], M => consHead x M
  | x :: y :: xs, M => x :: glue (y :: xs) M

theorem glue_cons (x : List Char) (xs : List (List Char)) (M : List (List Char))
    (h : xs ≠ []) : glue (x :: xs) M = x :: glue xs M := by
  cases xs with
  | nil => exact absurd rfl h
  | cons y ys => rfl

theorem consHead_nil (M : List (List Char)) (h : M ≠ []) : consHead [] M = M := by
  cases M with
  | nil => exact absurd rfl h
  | cons u us => simp [consHead]

theorem splitNL_cons_nl (cs : List Char) : splitNL ('\n' :: cs) = [] :: splitNL cs := by
  simp [splitNL]

theorem splitNL_cons_ne (c : Char) (cs l : List Char) (ls : List (List Char))
    (hc : c ≠ '\n') (h : splitNL cs = l :: ls) :
    splitNL (c :: cs) = (c :: l) :: ls := by
  simp [splitNL, if_neg hc, h]

theorem splitNL_append (a b : List Char) :
    splitNL (a ++ b) = glue (splitNL a) (splitNL b) := by
  induction a with
  | nil =>
    simp only [List.nil_append, splitNL, glue]
    exact (consHead_nil _ (splitNL_ne_nil b)).symm
  | cons c cs ih =>
    rw [List.cons_append]
    by_cases hc : c = '\n'
    · subst hc
      rw [splitNL_cons_nl, splitNL_cons_nl, ih,
        glue_cons [] (splitNL cs) (splitNL b) (splitNL_ne_nil cs)]
    · cases h : splitNL cs with
      | nil => exact absurd h (splitNL_ne_nil cs)
      | cons l ls =>
        rw [h] at ih
        cases ls with
        | nil =>
          cases hb : splitNL b with
          | nil => exact absurd hb (splitNL_ne_nil b)
          | cons u us =>
            rw [hb] at ih
            simp only [glue, consHead] at ih
            rw [splitNL_cons_ne c (cs ++ b) (l ++ u) us hc ih,
              splitNL_cons_ne c cs l [] hc h]
            simp [glue, consHead]
        | cons l2 ls2 =>
          rw [glue_cons l (l2 :: ls2) (splitNL b) (by simp)] at ih
          rw [splitNL_cons_ne c (cs ++ b) l (glue (l2 :: ls2) (splitNL b)) hc ih,
            splitNL_cons_ne c cs l (l2 :: ls2) hc h,
            glue_cons (c :: l) (l2 :: ls2) (splitNL b) (by simp)]

theorem splitNL_no_newline (a : List Char) (h : '\n' ∉ a) : splitNL a = [a] := by
  induction a with
  | nil => simp [splitNL]
  | cons c cs ih =>
    have hc : c ≠ '\n' := fun hcc => h (hcc ▸ List.mem_cons_self c cs)
    have hcs : '\n' ∉ cs := fun hm => h (List.mem_cons_of_mem c hm)
    simp only [splitNL, if_neg hc, ih hcs]

/-- Every piece produced by the split is newline-free. -/
theorem splitNL_mem_no_newline (s : List Char) :
    ∀ l ∈ splitNL s, '\n' ∉ l := by
  induction s with
  | nil =>
    intro l hl
    simp [splitNL] at hl
    simp [hl]
  | cons c cs ih =>
    intro l hl
    simp only [splitNL] at hl
    by_cases hc : c = '\n'
    · rw [if_pos hc] at hl
      rcases List.mem_cons.mp hl with h | h
      · simp [h]
      · exact ih l h
    · rw [if_neg hc] at hl
      cases h : splitNL cs with
      | nil => exact absurd h (splitNL_ne_nil cs)
      | cons m ms =>
        rw [h] at hl
        rcases List.mem_cons.mp hl with h1 | h1
        · subst h1
          intro hmem
          rcases List.mem_cons.mp hmem with h2 | h2
          · exact hc h2.symm
          · exact ih m (h ▸ List.mem_cons_self m ms) h2
        · exact ih l (h ▸ List.mem_cons_of_mem m h1)

theorem getLastD_mem {α : Type} (L : List α) (d : α) (h : L ≠ []) : L.getLastD d ∈ L := by
  induction L generalizing d with
  | nil => exact absurd rfl h
  | cons x xs ih =>
    cases xs with
    | nil => simp [List.getLastD]
    | cons y ys =>
      have hm := ih x (by simp)
      rw [List.getLastD_cons]
      exact List.mem_cons_of_mem x hm

theorem glue_ne_nil (L M : List (List Char)) (hM : M ≠ []) : glue L M ≠ [] := by
  cases L with
  | nil => simpa [glue]
  | cons x xs =>
    cases xs with
    | nil => simp [glue, consHead_ne_nil]
    | cons y ys => simp [glue]

theorem glue_dropLast (L M : List (List Char)) (hL : L ≠ []) (hM : M ≠ []) :
    (glue L M).dropLast = L.dropLast ++ (consHead (L.getLastD []) M).dropLast := by
  induction L with
  | nil => exact absurd rfl hL
  | cons x xs ih =>
    cases xs with
    | nil => simp [glue, List.getLastD]
    | cons y ys =>
      have h1 : glue (y :: ys) M ≠ [] := glue_ne_nil _ _ hM
      rw [glue_cons x (y :: ys) M (by simp)]
      have ih1 := ih (by simp)
      simp only [List.getLastD_cons] at ih1 ⊢
      cases h : glue (y :: ys) M with
      | nil => exact absurd h h1
      | cons g gs =>
        rw [h] at ih1
        simp only [List.dropLast_cons₂, List.cons_append]
        rw [ih1]

theorem glue_getLastD (L M : List (List Char)) (hL : L ≠ []) (hM : M ≠ []) :
    (glue L M).getLastD [] = (consHead (L.getLastD []) M).getLastD [] := by
  induction L with
  | nil => exact absurd rfl hL
  | cons x xs ih =>
    cases xs with
    | nil => simp [glue, List.getLastD]
    | cons y ys =>
      have h1 : glue (y :: ys) M ≠ [] := glue_ne_nil _ _ hM
      rw [glue_cons x (y :: ys) M (by simp)]
      have ih1 := ih (by simp)
      simp only [List.getLastD_cons] at ih1 ⊢
      cases h : glue (y :: ys) M with
      | nil => exact absurd h h1
      | cons g gs =>
        rw [h] at ih1
        simp only [List.getLastD_cons] at ih1 ⊢
        exact ih1

theorem update_waiting_state_position (st : SessionTailer) (e : Entry) :
    (update_waiting_state st e).position = st.position := by
  unfold update_waiting_state
  repeat' first | split | rfl

theorem update_waiting_state_buffer (st : SessionTailer) (e : Entry) :
    (update_waiting_state st e).buffer = st.buffer := by
  unfold update_waiting_state
  repeat' first | split | rfl

theorem processLines_fst (parse : List Char → Option Entry) (L : List (List Char))
    (st : SessionTailer) :
    (processLines parse L st).1 = L.filterMap (lineEntry parse) := by
  induction L generalizing st with
  | nil => simp [processLines]
  | cons l ls ih =>
    simp only [processLines, List.filterMap_cons]
    cases h : lineEntry parse l with
    | none => exact ih st
    | some obj => simp [ih]

theorem processLines_position (parse : List Char → Option Entry) (L : List (List Char))
    (st : SessionTailer) :
    (processLines parse L st).2.position = st.position := by
  induction L generalizing st with
  | nil => simp [processLines]
  | cons l ls ih =>
    simp only [processLines]
    cases h : lineEntry parse l with
    | none => exact ih st
    | some obj =>
      simp only
      rw [ih, update_waiting_state_position]

theorem processLines_buffer (parse : List Char → Option Entry) (L : List (List Char))
    (st : SessionTailer) :
    (processLines parse L st).2.buffer = st.buffer := by
  induction L generalizing st with
  | nil => simp [processLines]
  | cons l ls ih =>
    simp only [processLines]
    cases h : lineEntry parse l with
    | none => exact ih st
    | some obj =>
      simp only
      rw [ih, update_waiting_state_buffer]

theorem read_new_lines_eq (parse : List Char → Option Entry) (file : List Char)
    (st : SessionTailer) :
    read_new_lines parse file st =
      if file.drop st.position = [] then
        ([], { st with position := max st.position file.length })
      else
        processLines parse (splitNL (st.buffer ++ file.drop st.position)).dropLast
          { st with position := max st.position file.length,
                    buffer := (splitNL (st.buffer ++ file.drop st.position)).getLastD [] } := rfl

/-- One `read_new_lines` step on a file that has grown from `P` to
`P ++ chunk`, starting from the canonical state after `P` was fully read:
the returned entries are exactly those of the newly completed lines, and
position/buffer move to the canonical state of `P ++ chunk`. -/
theorem read_new_lines_spec (parse : List Char → Option Entry) (P chunk : List Char)
    (st : SessionTailer) (hpos : st.position = P.length)
    (hbuf : st.buffer = (splitNL P).getLastD []) :
    (read_new_lines parse (P ++ chunk) st).1
      = ((splitNL (P ++ chunk)).dropLast.drop (splitNL P).dropLast.length).filterMap
          (lineEntry parse)
    ∧ (read_new_lines parse (P ++ chunk) st).2.position = (P ++ chunk).length
    ∧ (read_new_lines parse (P ++ chunk) st).2.buffer = (splitNL (P ++ chunk)).getLastD [] := by
  have hdrop : (P ++ chunk).drop st.position = chunk := by
    rw [hpos]; exact List.drop_left P chunk
  have hlen : P.length ≤ (P ++ chunk).length := by simp
  rw [read_new_lines_eq, hdrop]
  by_cases hch : chunk = []
  · subst hch
    rw [if_pos rfl]
    refine ⟨?_, ?_, ?_⟩
    · simp only [List.append_nil, List.drop_length, List.filterMap_nil]
    · simp [hpos]
    · simpa using hbuf
  · have hnl : '\n' ∉ (splitNL P).getLastD [] :=
      splitNL_mem_no_newline P _ (getLastD_mem _ _ (splitNL_ne_nil P))
    have hlines : splitNL (st.buffer ++ chunk)
        = consHead ((splitNL P).getLastD []) (splitNL chunk) := by
      rw [hbuf, splitNL_append, splitNL_no_newline _ hnl]
      rfl
    have hglue : splitNL (P ++ chunk) = glue (splitNL P) (splitNL chunk) := splitNL_append P chunk
    rw [if_neg hch, hlines]
    refine ⟨?_, ?_, ?_⟩
    · rw [processLines_fst, hglue,
        glue_dropLast (splitNL P) (splitNL chunk) (splitNL_ne_nil P) (splitNL_ne_nil chunk),
        List.drop_left]
    · rw [processLines_position]
      simp only [hpos]
      exact Nat.max_eq_right hlen
    · rw [processLines_buffer, hglue,
        glue_getLastD (splitNL P) (splitNL chunk) (splitNL_ne_nil P) (splitNL_ne_nil chunk)]

theorem dropLast_splitNL_append (A B : List Char) :
    (splitNL (A ++ B)).dropLast
      = (splitNL A).dropLast ++ (consHead ((splitNL A).getLastD []) (splitNL B)).dropLast := by
  rw [splitNL_append, glue_dropLast _ _ (splitNL_ne_nil A) (splitNL_ne_nil B)]

/-- A history of appends, a `read_new_lines` call after each append:
`sofar` is the file contents before the first of the remaining appends. -/
def tailChunks (parse : List Char → Option Entry) :
    List Char → List (List Char) → SessionTailer → List Entry × SessionTailer
  | _, [], st => ([], st)
  | sofar, c :: cs, st =>
    let r1 := read_new_lines parse (sofar ++ c) st
    let r2 := tailChunks parse (sofar ++ c) cs r1.2
    (r1.1 ++ r2.1, r2.2)

theorem tailChunks_spec (parse : List Char → Option Entry) (cs : List (List Char)) :
    ∀ (P : List Char) (st : SessionTailer),
      st.position = P.length → st.buffer = (splitNL P).getLastD [] →
      (tailChunks parse P cs st).1
        = ((splitNL (P ++ cs.flatten)).dropLast.drop (splitNL P).dropLast.length).filterMap
            (lineEntry parse)
      ∧ (tailChunks parse P cs st).2.position = (P ++ cs.flatten).length
      ∧ (tailChunks parse P cs st).2.buffer = (splitNL (P ++ cs.flatten)).getLastD [] := by
  induction cs with
  | nil =>
    intro P st h1 h2
    refine ⟨?_, ?_, ?_⟩
    · rw [List.flatten_nil, List.append_nil, List.drop_length, List.filterMap_nil]
      rfl
    · rw [List.flatten_nil, List.append_nil]
      exact h1
    · rw [List.flatten_nil, List.append_nil]
      exact h2
  | cons c cs ih =>
    intro P st h1 h2
    obtain ⟨ha, hb, hc⟩ := read_new_lines_spec parse P c st h1 h2
    obtain ⟨ia, ib, ic⟩ := ih (P ++ c) (read_new_lines parse (P ++ c) st).2 hb hc
    have e1 := dropLast_splitNL_append P c
    have e2 := dropLast_splitNL_append (P ++ c) cs.flatten
    have key : (splitNL ((P ++ c) ++ cs.flatten)).dropLast.drop (splitNL P).dropLast.length
        = ((splitNL (P ++ c)).dropLast.drop (splitNL P).dropLast.length)
          ++ ((splitNL ((P ++ c) ++ cs.flatten)).dropLast.drop (splitNL (P ++ c)).dropLast.length)
        := by
      rw [e2, List.drop_left, e1, List.append_assoc, List.drop_left, List.drop_left]
    simp only [tailChunks]
    refine ⟨?_, ?_, ?_⟩
    · rw [List.flatten_cons, ← List.append_assoc, key, List.filterMap_append, ha, ia]
    · rw [List.flatten_cons, ← List.append_assoc]
      exact ib
    · rw [List.flatten_cons, ← List.append_assoc]
      exact ic

/-- C5: concatenating the results of repeated `read_new_lines` calls over an
append-only history equals the single `read_all` result on the full history
(for any instance state `st`, since `read_all` reads via a fresh tailer). -/
theorem repeated_reads_eq_read_all (parse : List Char → Option Entry)
    (cs : List (List Char)) (st : SessionTailer) :
    (tailChunks parse [] cs SessionTailer.mk0).1 = (read_all parse cs.flatten st).1 := by
  have hpos : SessionTailer.mk0.position = ([] : List Char).length := rfl
  have hbuf : SessionTailer.mk0.buffer = (splitNL []).getLastD [] := rfl
  obtain ⟨h1, -, -⟩ := tailChunks_spec parse cs [] SessionTailer.mk0 hpos hbuf
  obtain ⟨h2, -, -⟩ := read_new_lines_spec parse [] cs.flatten SessionTailer.mk0 hpos hbuf
  rw [List.nil_append] at h1
  rw [h1]
  show _ = (read_new_lines parse cs.flatten SessionTailer.mk0).1
  exact h2.symm

/-- C4: a caught-up tailer (`position` at end of file `F`, empty pending
buffer) that sees an append `w1` without a line terminator returns no
entries and buffers `w1`; when the terminator arrives in a second append
`w2 ++ "\n"`, exactly the one entry parsed from the byte-for-byte
reconstruction `w1 ++ w2` is returned; the terminator-final append leaves
an empty pending buffer, and a further read with no new data yields
nothing. -/
theorem partial_line_buffering (parse : List Char → Option Entry)
    (F w1 w2 : List Char) (st : SessionTailer) (e : Entry)
    (hpos : st.position = F.length) (hbuf : st.buffer = [])
    (h1 : '\n' ∉ w1) (h2 : '\n' ∉ w2) (hw1 : w1 ≠ [])
    (hE : lineEntry parse (w1 ++ w2) = some e) :
    (read_new_lines parse (F ++ w1) st).1 = []
    ∧ (read_new_lines parse (F ++ w1) st).2.buffer = w1
    ∧ (read_new_lines parse ((F ++ w1) ++ (w2 ++ ['\n']))
        (read_new_lines parse (F ++ w1) st).2).1 = [e]
    ∧ (read_new_lines parse ((F ++ w1) ++ (w2 ++ ['\n']))
        (read_new_lines parse (F ++ w1) st).2).2.buffer = []
    ∧ (read_new_lines parse ((F ++ w1) ++ (w2 ++ ['\n']))
        (read_new_lines parse ((F ++ w1) ++ (w2 ++ ['\n']))
          (read_new_lines parse (F ++ w1) st).2).2).1 = [] := by
  have hd1 : (F ++ w1).drop st.position = w1 := by
    rw [hpos]; exact List.drop_left F w1
  have hs1 : splitNL (st.buffer ++ w1) = [w1] := by
    rw [hbuf, List.nil_append, splitNL_no_newline w1 h1]
  have hle1 : st.position ≤ (F ++ w1).length := by
    rw [hpos]; simp
  have e1 : read_new_lines parse (F ++ w1) st
      = ([], { st with position := (F ++ w1).length, buffer := w1 }) := by
    rw [read_new_lines_eq, hd1, if_neg hw1, hs1]
    simp [processLines, Nat.max_eq_right hle1]
    rw [hpos]
    exact Nat.le_add_right F.length w1.length
  have hd2 : ((F ++ w1) ++ (w2 ++ ['\n'])).drop (F ++ w1).length = w2 ++ ['\n'] :=
    List.drop_left (F ++ w1) (w2 ++ ['\n'])
  have h12 : '\n' ∉ w1 ++ w2 := by
    intro hm
    rcases List.mem_append.mp hm with hm | hm
    · exact h1 hm
    · exact h2 hm
  have hs2 : splitNL (w1 ++ (w2 ++ ['\n'])) = [w1 ++ w2, []] := by
    rw [← List.append_assoc, splitNL_append (w1 ++ w2) ['\n'],
      splitNL_no_newline _ h12]
    show consHead (w1 ++ w2) (splitNL ['\n']) = _
    have : splitNL ['\n'] = [[], []] := by simp [splitNL]
    rw [this]
    simp [consHead]
  have hle2 : (F ++ w1).length ≤ ((F ++ w1) ++ (w2 ++ ['\n'])).length := by simp
  have e2 : read_new_lines parse ((F ++ w1) ++ (w2 ++ ['\n']))
      { st with position := (F ++ w1).length, buffer := w1 }
      = processLines parse [w1 ++ w2]
          { st with position := ((F ++ w1) ++ (w2 ++ ['\n'])).length, buffer := [] } := by
    rw [read_new_lines_eq]
    show (if (((F ++ w1) ++ (w2 ++ ['\n'])).drop (F ++ w1).length = []) then _ else _) = _
    rw [hd2, if_neg (by simp)]
    show processLines parse (splitNL (w1 ++ (w2 ++ ['\n']))).dropLast _ = _
    rw [hs2]
    show processLines parse [w1 ++ w2] _ = _
    congr 1
    simp [Nat.max_eq_right hle2]
  have e3 : (processLines parse [w1 ++ w2]
      { st with position := ((F ++ w1) ++ (w2 ++ ['\n'])).length, buffer := [] }).1
      = [e] := by
    simp [processLines, hE]
  have hbuf3 : (processLines parse [w1 ++ w2]
      { st with position := ((F ++ w1) ++ (w2 ++ ['\n'])).length, buffer := [] }).2.buffer
      = [] := by
    rw [processLines_buffer]
  have hpos3 : (processLines parse [w1 ++ w2]
      { st with position := ((F ++ w1) ++ (w2 ++ ['\n'])).length, buffer := [] }).2.position
      = ((F ++ w1) ++ (w2 ++ ['\n'])).length := by
    rw [processLines_position]
  rw [e1]
  refine ⟨rfl, rfl, ?_, ?_, ?_⟩
  · show (read_new_lines parse ((F ++ w1) ++ (w2 ++ ['\n']))
      { st with position := (F ++ w1).length, buffer := w1 }).1 = [e]
    rw [e2]
    exact e3
  · show (read_new_lines parse ((F ++ w1) ++ (w2 ++ ['\n']))
      { st with position := (F ++ w1).length, buffer := w1 }).2.buffer = []
    rw [e2]
    exact hbuf3
  · show (read_new_lines parse ((F ++ w1) ++ (w2 ++ ['\n']))
      (read_new_lines parse ((F ++ w1) ++ (w2 ++ ['\n']))
        { st with position := (F ++ w1).length, buffer := w1 }).2).1 = []
    rw [e2, read_new_lines_eq, hpos3, List.drop_length, if_pos rfl]

/-- C10: `read_all` preserves the instance's byte position, pending buffer
and message counter, while overwriting `waiting_for_input` and the
last-message-type with the values a fresh full-history read (from byte 0,
via `SessionTailer.mk0`) derives; its returned entries are that full read's
entries. -/
theorem read_all_frame (parse : List Char → Option Entry) (file : List Char)
    (st : SessionTailer) :
    (read_all parse file st).2.position = st.position
    ∧ (read_all parse file st).2.buffer = st.buffer
    ∧ (read_all parse file st).2.message_index = st.message_index
    ∧ (read_all parse file st).2.waiting_for_input
        = (read_new_lines parse file SessionTailer.mk0).2.waiting_for_input
    ∧ (read_all parse file st).2.last_message_type
        = (read_new_lines parse file SessionTailer.mk0).2.last_message_type
    ∧ (read_all parse file st).1 = (read_new_lines parse file SessionTailer.mk0).1 :=
  ⟨rfl, rfl, rfl, rfl, rfl, rfl⟩

/-! ### Waiting-for-input characterization (C6) -/

/-- The waiting-for-input value an entry forces in `_update_waiting_state`
(`none` = the entry leaves the previous state unchanged). -/
def detVal (e : Entry) : Option Bool :=
  if e.type = some "assistant" then
    match e.content with
    | Content.blocks bs =>
      match bs.getLast? with
      | some t => if t = "tool_use" then some false
                  else if t = "text" then some true else none
      | none => some false
    | Content.str _ => some false
  else if e.type = some "user" then
    match e.content with
    | Content.blocks bs =>
      match bs.head? with
      | some _ => some false
      | none => none
    | Content.str _ => some false
  else none

theorem update_waiting_state_waiting (st : SessionTailer) (e : Entry) :
    (update_waiting_state st e).waiting_for_input
      = (detVal e).getD st.waiting_for_input := by
  obtain ⟨ty, co⟩ := e
  by_cases h1 : ty = some "assistant"
  · subst h1
    cases co with
    | blocks bs =>
      cases hl : bs.getLast? with
      | none => simp [update_waiting_state, detVal, hl]
      | some t =>
        by_cases h2 : t = "tool_use"
        · simp [update_waiting_state, detVal, hl, h2]
        · by_cases h3 : t = "text" <;>
            simp [update_waiting_state, detVal, hl, h2, h3]
    | str s => simp [update_waiting_state, detVal]
  · by_cases h2 : ty = some "user"
    · subst h2
      cases co with
      | blocks bs =>
        cases hl : bs.head? with
        | none => simp [update_waiting_state, detVal, hl]
        | some t =>
          by_cases h3 : t = "tool_result" <;>
            simp [update_waiting_state, detVal, hl, h3]
      | str s => simp [update_waiting_state, detVal]
    · simp [update_waiting_state, detVal, h1, h2]

theorem update_waiting_state_keep (st : SessionTailer) (e : Entry)
    (h : detVal e = none) : update_waiting_state st e = st := by
  obtain ⟨ty, co⟩ := e
  by_cases h1 : ty = some "assistant"
  · subst h1
    cases co with
    | blocks bs =>
      cases hl : bs.getLast? with
      | none => simp [detVal, hl] at h
      | some t =>
        by_cases h2 : t = "tool_use"
        · simp [detVal, hl, h2] at h
        · by_cases h3 : t = "text"
          · simp [detVal, hl, h2, h3] at h
          · simp [update_waiting_state, hl, h2, h3]
    | str s => simp [detVal] at h
  · by_cases h2 : ty = some "user"
    · subst h2
      cases co with
      | blocks bs =>
        cases hl : bs.head? with
        | none => simp [update_waiting_state, hl, h1]
        | some t => simp [detVal, hl] at h
      | str s => simp [detVal, h1] at h
    · simp [update_waiting_state, h1, h2]

/-- Running the update over a list of entries, as `read_new_lines` does for
the included entries in order. -/
def runEntries (es : List Entry) : SessionTailer :=
  es.foldl update_waiting_state SessionTailer.mk0

theorem foldl_update_waiting (es : List Entry) : ∀ st : SessionTailer,
    (es.foldl update_waiting_state st).waiting_for_input
      = (es.filterMap detVal).getLastD st.waiting_for_input := by
  induction es with
  | nil => intro st; rfl
  | cons e es ih =>
    intro st
    rw [List.foldl_cons, ih, List.filterMap_cons]
    cases h : detVal e with
    | none =>
      simp only
      rw [update_waiting_state_waiting, h]
      rfl
    | some v =>
      simp only
      rw [update_waiting_state_waiting, h, List.getLastD_cons]
      rfl

theorem filterMap_detVal_true_iff (es : List Entry) :
    (es.filterMap detVal).getLastD false = true
      ↔ ∃ l1 e l2, es = l1 ++ e :: l2 ∧ detVal e = some true
          ∧ ∀ x ∈ l2, detVal x = none := by
  induction es using List.reverseRecOn with
  | nil => simp
  | append_singleton es a ih =>
    rw [List.filterMap_append]
    cases h : detVal a with
    | none =>
      simp only [List.filterMap_cons, h, List.filterMap_nil, List.append_nil]
      rw [ih]
      constructor
      · rintro ⟨l1, e, l2, rfl, he, hall⟩
        refine ⟨l1, e, l2 ++ [a], by simp, he, ?_⟩
        intro x hx
        rcases List.mem_append.mp hx with hx | hx
        · exact hall x hx
        · rw [List.mem_singleton.mp hx]
          exact h
      · rintro ⟨l1, e, l2, hsplit, he, hall⟩
        rcases l2.eq_nil_or_concat with rfl | ⟨l2', b, rfl⟩
        · exfalso
          have hea : a = e := by
            have hg := congrArg List.getLast? hsplit
            rw [List.getLast?_concat, List.getLast?_concat] at hg
            exact Option.some.inj hg
          rw [hea, he] at h
          exact Option.noConfusion h
        · rw [List.concat_eq_append] at hsplit hall
          have hsplit2 : es ++ [a] = (l1 ++ e :: l2') ++ [b] := by
            rw [hsplit]
            simp
          have hab : a = b := by
            have hg := congrArg List.getLast? hsplit2
            rw [List.getLast?_concat, List.getLast?_concat] at hg
            exact Option.some.inj hg
          have hes : es = l1 ++ e :: l2' := by
            have hd := congrArg List.dropLast hsplit2
            rw [List.dropLast_concat, List.dropLast_concat] at hd
            exact hd
          refine ⟨l1, e, l2', hes, he, ?_⟩
          intro x hx
          exact hall x (by simp [hx])
    | some v =>
      have hgl : (es.filterMap detVal ++ List.filterMap detVal [a]).getLastD false = v := by
        simp only [List.filterMap_cons, h, List.filterMap_nil]
        exact List.getLastD_concat false v (es.filterMap detVal)
      rw [hgl]
      constructor
      · intro hv
        refine ⟨es, a, [], by simp, ?_, by simp⟩
        rw [h, hv]
      · rintro ⟨l1, e, l2, hsplit, he, hall⟩
        rcases l2.eq_nil_or_concat with rfl | ⟨l2', b, rfl⟩
        · have hea : a = e := by
            have hg := congrArg List.getLast? hsplit
            rw [List.getLast?_concat, List.getLast?_concat] at hg
            exact Option.some.inj hg
          rw [hea, he] at h
          exact (Option.some.inj h).symm
        · exfalso
          rw [List.concat_eq_append] at hsplit hall
          have hsplit2 : es ++ [a] = (l1 ++ e :: l2') ++ [b] := by
            rw [hsplit]
            simp
          have hab : a = b := by
            have hg := congrArg List.getLast? hsplit2
            rw [List.getLast?_concat, List.getLast?_concat] at hg
            exact Option.some.inj hg
          have hmem : b ∈ l2' ++ [b] := by simp
          have := hall b hmem
          rw [hab, this] at h
          exact Option.noConfusion h

theorem detVal_true_iff (e : Entry) :
    detVal e = some true
      ↔ e.type = some "assistant"
        ∧ ∃ bs, e.content = Content.blocks bs ∧ bs.getLast? = some "text" := by
  obtain ⟨ty, co⟩ := e
  by_cases h1 : ty = some "assistant"
  · subst h1
    cases co with
    | blocks bs =>
      cases hl : bs.getLast? with
      | none => simp [detVal, hl]
      | some t =>
        by_cases h2 : t = "tool_use"
        · simp [detVal, hl, h2]
        · by_cases h3 : t = "text"
          · subst h3
            simp [detVal, hl, h2]
          · simp [detVal, hl, h2, h3]
    | str s => simp [detVal]
  · by_cases h2 : ty = some "user"
    · subst h2
      cases co with
      | blocks bs => cases hl : bs.head? with
        | none => simp [detVal, hl]
        | some t => simp [detVal, hl]
      | str s => simp [detVal]
    · simp [detVal, h1, h2]

/-- C6 (amended): after processing a sequence of entries from the initial
state, `waiting_for_input` is true exactly when the most recent
state-determining entry is an assistant entry whose final content block is
plain text; an assistant tool invocation, a user tool result, a user message
with string content or a nonempty block list each set it false; an assistant
entry whose final block is neither text nor a tool invocation (e.g. a
thinking block) and a user entry whose content is an empty block list leave
the previous state unchanged. -/
theorem waiting_for_input_characterization (es : List Entry) :
    ((runEntries es).waiting_for_input = true
      ↔ ∃ l1 e l2, es = l1 ++ e :: l2
          ∧ (e.type = some "assistant"
              ∧ ∃ bs, e.content = Content.blocks bs ∧ bs.getLast? = some "text")
          ∧ ∀ x ∈ l2, detVal x = none)
    ∧ (∀ (st : SessionTailer) (e : Entry) (bs : List String),
        e.type = some "assistant" → e.content = Content.blocks bs →
        bs.getLast? = some "tool_use" →
        (update_waiting_state st e).waiting_for_input = false)
    ∧ (∀ (st : SessionTailer) (e : Entry) (bs : List String),
        e.type = some "user" → e.content = Content.blocks bs → bs ≠ [] →
        (update_waiting_state st e).waiting_for_input = false)
    ∧ (∀ (st : SessionTailer) (e : Entry) (s : List Char),
        e.type = some "user" → e.content = Content.str s →
        (update_waiting_state st e).waiting_for_input = false)
    ∧ (∀ (st : SessionTailer) (e : Entry) (bs : List String) (t : String),
        e.type = some "assistant" → e.content = Content.blocks bs →
        bs.getLast? = some t → t ≠ "tool_use" → t ≠ "text" →
        update_waiting_state st e = st)
    ∧ (∀ (st : SessionTailer) (e : Entry),
        e.type = some "user" → e.content = Content.blocks [] →
        update_waiting_state st e = st) := by
  refine ⟨?_, ?_, ?_, ?_, ?_, ?_⟩
  · have h0 : (runEntries es).waiting_for_input = (es.filterMap detVal).getLastD false :=
      foldl_update_waiting es SessionTailer.mk0
    rw [h0, filterMap_detVal_true_iff]
    apply exists_congr
    intro l1
    apply exists_congr
    intro e
    apply exists_congr
    intro l2
    apply and_congr_right
    intro _
    apply and_congr_left
    intro _
    exact detVal_true_iff e
  · intro st e bs h1 h2 h3
    simp [update_waiting_state, h1, h2, h3]
  · intro st e bs h1 h2 h3
    have h4 : e.type = some "assistant" → False := by
      intro hc
      rw [h1] at hc
      simp at hc
    cases hb : bs.head? with
    | none =>
      rw [List.head?_eq_none_iff] at hb
      exact absurd hb h3
    | some t =>
      by_cases h5 : t = "tool_result" <;>
        simp [update_waiting_state, h1, h2, hb, h4, h5]
  · intro st e s h1 h2
    have h4 : e.type = some "assistant" → False := by
      intro hc
      rw [h1] at hc
      simp at hc
    simp [update_waiting_state, h1, h2, h4]
  · intro st e bs t h1 h2 h3 h4 h5
    simp [update_waiting_state, h1, h2, h3, h4, h5]
  · intro st e h1 h2
    have h4 : e.type = some "assistant" → False := by
      intro hc
      rw [h1] at hc
      simp at hc
    simp [update_waiting_state, h1, h2, h4]

/-- C6 witness: on the one-entry history consisting of an assistant entry
whose final block is text, the characterization yields
`waiting_for_input = true`. -/
theorem waiting_for_input_characterization_witness :
    (runEntries [⟨some "assistant", Content.blocks ["text"]⟩]).waiting_for_input = true :=
  (waiting_for_input_characterization
      [⟨some "assistant", Content.blocks ["text"]⟩]).1.mpr
    ⟨[], ⟨some "assistant", Content.blocks ["text"]⟩, [], rfl,
      ⟨rfl, ["text"], rfl, rfl⟩, by simp⟩

/-- C6 counterexample: a user entry whose content is an empty block list is
a subsequent user message after an assistant text entry, yet it does not
set `waiting_for_input` to false — the flag is still true. -/
theorem waiting_user_empty_counterexample :
    ((⟨some "user", Content.blocks []⟩ : Entry).type = some "user")
    ∧ (update_waiting_state
        (update_waiting_state SessionTailer.mk0
          ⟨some "assistant", Content.blocks ["text"]⟩)
        ⟨some "user", Content.blocks []⟩).waiting_for_input = true := by
  constructor
  · rfl
  · rfl

/-! ## Session registry (claude_code_live/server.py)

The registry `_sessions` is an insertion-ordered map from session id to
`SessionInfo`; eviction only consults each session's backing file, so a
session is modelled by the `st_mtime` view of its path at call time:
`none` when `path.exists()` is false, `some t` for the mtime tick. -/

abbrev Mtime := Option Nat

def MAX_SESSIONS : Nat := 10

/-- The strict comparison between eviction keys that Python `min` performs,
where the key of an existing file is its mtime and the key of a missing
file is `float("inf")`. -/
def keyLt : Mtime → Mtime → Bool
  | none, _ => false
  | some _, none => true
  | some a, some b => a < b

/-- `get_oldest_session_id`: `min` over the insertion-ordered items by
eviction key; the first item attaining the minimum wins. -/
def get_oldest_session_id (sessions : List (String × Mtime)) : Option String :=
  match sessions with
  | [] => none
  | s :: rest =>
    some ((rest.foldl (fun best x => if keyLt x.2 best.2 then x else best) s).1)

/-- `remove_session`: pop the entry with the given id (ids are unique keys
of the Python dict). -/
def remove_session (sessions : List (String × Mtime)) (session_id : String) :
    List (String × Mtime) :=
  sessions.filter (fun p => p.1 != session_id)

/-- `add_session(path, evict_oldest)`, returning
(added id, evicted id, new registry).  Tailer creation/advancement and
logging have no effect on the registry contents and are outside this
model. -/
def add_session (sessions : List (String × Mtime)) (session_id : String)
    (mtime : Mtime) (evict_oldest : Bool) :
    Option String × Option String × List (String × Mtime) :=
  if sessions.any (fun p => p.1 == session_id) then (none, none, sessions)
  else if MAX_SESSIONS ≤ sessions.length ∧ evict_oldest = false then
    (none, none, sessions)
  else
    let step :=
      if MAX_SESSIONS ≤ sessions.length then
        match get_oldest_session_id sessions with
        | some oldest => (some oldest, remove_session sessions oldest)
        | none => (none, sessions)
      else (none, sessions)
    (some session_id, step.1, step.2 ++ [(session_id, mtime)])

theorem keyLt_irrefl (a : Mtime) : keyLt a a = false := by
  cases a <;> simp [keyLt]

theorem keyLt_trans (a b c : Mtime) (h1 : keyLt a b = true) (h2 : keyLt b c = true) :
    keyLt a c = true := by
  cases a <;> cases b <;> cases c <;> simp [keyLt] at * <;> omega

theorem keyLt_le_trans (x b r : Mtime) (h1 : keyLt x b = false) (h2 : keyLt x r = true) :
    keyLt b r = true := by
  cases x <;> cases b <;> cases r <;> simp [keyLt] at * <;> omega

theorem foldl_min_spec (l : List (String × Mtime)) : ∀ b : String × Mtime,
    ((l.foldl (fun best x => if keyLt x.2 best.2 then x else best) b) = b
      ∨ (l.foldl (fun best x => if keyLt x.2 best.2 then x else best) b) ∈ l)
    ∧ keyLt b.2 (l.foldl (fun best x => if keyLt x.2 best.2 then x else best) b).2 = false
    ∧ ∀ p ∈ l, keyLt p.2 (l.foldl (fun best x => if keyLt x.2 best.2 then x else best) b).2
        = false := by
  induction l with
  | nil =>
    intro b
    exact ⟨Or.inl rfl, keyLt_irrefl b.2, by simp⟩
  | cons x xs ih =>
    intro b
    simp only [List.foldl_cons]
    by_cases hxb : keyLt x.2 b.2 = true
    · rw [if_pos hxb]
      obtain ⟨hmem, hbest, hall⟩ := ih x
      refine ⟨?_, ?_, ?_⟩
      · rcases hmem with h | h
        · exact Or.inr (by simp [h])
        · exact Or.inr (by simp [h])
      · by_cases hbr : keyLt b.2 (xs.foldl (fun best x => if keyLt x.2 best.2 then x else best) x).2 = true
        · exact absurd (keyLt_trans _ _ _ hxb hbr) (by simp [hbest])
        · simpa using hbr
      · intro p hp
        rcases List.mem_cons.mp hp with h | h
        · rw [h]; exact hbest
        · exact hall p h
    · rw [if_neg hxb]
      obtain ⟨hmem, hbest, hall⟩ := ih b
      refine ⟨?_, hbest, ?_⟩
      · rcases hmem with h | h
        · exact Or.inl h
        · exact Or.inr (by simp [h])
      · intro p hp
        rcases List.mem_cons.mp hp with h | h
        · subst h
          by_cases hpr : keyLt p.2 (xs.foldl (fun best x => if keyLt x.2 best.2 then x else best) b).2 = true
          · have := keyLt_le_trans p.2 b.2 _ (by simpa using hxb) hpr
            rw [this] at hbest
            exact absurd hbest (by simp)
          · simpa using hpr
        · exact hall p h

theorem get_oldest_spec (sessions : List (String × Mtime)) (h : sessions ≠ []) :
    ∃ p ∈ sessions, get_oldest_session_id sessions = some p.1
      ∧ ∀ q ∈ sessions, keyLt q.2 p.2 = false := by
  cases sessions with
  | nil => exact absurd rfl h
  | cons s rest =>
    obtain ⟨hmem, hbest, hall⟩ := foldl_min_spec rest s
    refine ⟨rest.foldl (fun best x => if keyLt x.2 best.2 then x else best) s, ?_, ?_, ?_⟩
    · rcases hmem with h1 | h1
      · rw [h1]; exact List.mem_cons_self s rest
      · exact List.mem_cons_of_mem s h1
    · rfl
    · intro q hq
      rcases List.mem_cons.mp hq with h1 | h1
      · rw [h1]; exact hbest
      · exact hall q h1

/-- C1 (amended): on a registry at capacity, with eviction enabled and a
not-yet-tracked id, `add_session` adds the new session and evicts a tracked
session of minimal eviction key — minimal mtime among sessions whose file
exists, with missing-file sessions keyed as infinitely NEW (`float("inf")`),
hence evicted last, not first; the evicted entry is removed and the new
session appended. -/
theorem add_session_evicts_minimal (sessions : List (String × Mtime))
    (session_id : String) (mtime : Mtime)
    (hcap : sessions.length = MAX_SESSIONS)
    (hnew : sessions.any (fun p => p.1 == session_id) = false) :
    ∃ p ∈ sessions,
      (add_session sessions session_id mtime true).2.1 = some p.1
      ∧ (∀ q ∈ sessions, keyLt q.2 p.2 = false)
      ∧ (add_session sessions session_id mtime true).1 = some session_id
      ∧ (add_session sessions session_id mtime true).2.2
          = remove_session sessions p.1 ++ [(session_id, mtime)] := by
  have hne : sessions ≠ [] := by
    intro hh
    rw [hh] at hcap
    simp [MAX_SESSIONS] at hcap
  obtain ⟨p, hp, hget, hmin⟩ := get_oldest_spec sessions hne
  have hle : MAX_SESSIONS ≤ sessions.length := le_of_eq hcap.symm
  have heq : add_session sessions session_id mtime true
      = (some session_id, some p.1, remove_session sessions p.1 ++ [(session_id, mtime)]) := by
    unfold add_session
    rw [hnew]
    simp only [Bool.false_eq_true, if_false]
    rw [if_neg (by simp), if_pos hle, hget]
  exact ⟨p, hp, by rw [heq], hmin, by rw [heq], by rw [heq]⟩

/-- A registry of ten sessions in which `s0`'s backing file is missing and
the others have mtimes 1..9. -/
def regMissing : List (String × Mtime) :=
  [("s0", none), ("s1", some 1), ("s2", some 2), ("s3", some 3), ("s4", some 4),
   ("s5", some 5), ("s6", some 6), ("s7", some 7), ("s8", some 8), ("s9", some 9)]

/-- C1 counterexample: at capacity with one missing-file session (`s0`),
adding an 11th session evicts `s1` (smallest existing mtime), not the
missing-file session `s0` the claim designates. -/
theorem add_session_missing_file_counterexample :
    ("s0", (none : Mtime)) ∈ regMissing
    ∧ (add_session regMissing "s10" (some 100) true).2.1 = some "s1"
    ∧ (add_session regMissing "s10" (some 100) true).2.1 ≠ some "s0" := by
  refine ⟨by decide, by decide, by decide⟩

/-- C1 witness: the amended eviction theorem applied to the concrete
ten-session registry. -/
theorem add_session_evicts_minimal_witness :
    ∃ p ∈ regMissing,
      (add_session regMissing "s10" (some 100) true).2.1 = some p.1
      ∧ (∀ q ∈ regMissing, keyLt q.2 p.2 = false)
      ∧ (add_session regMissing "s10" (some 100) true).1 = some "s10"
      ∧ (add_session regMissing "s10" (some 100) true).2.2
          = remove_session regMissing p.1 ++ [("s10", some 100)] :=
  add_session_evicts_minimal regMissing "s10" (some 100) (by decide) (by decide)

/-! ## IdleTracker (summarizer/tracker.py)

Insertion-ordered association lists stand for the Python dicts
`self.sessions` and `self._timers` (keys are unique).  Asyncio timer tasks
are given fresh numeric ids; a cancelled task never runs its body, which
the firing event models by requiring the fired id to still be the
registered one.  The `await self.summarize_callback(...)` suspension point
splits `_on_idle_timeout` into a start step and a completion step. -/

def alistGet {V : Type} (k : String) : List (String × V) → Option V
  | [] => none
  | p :: ps => if p.1 = k then some p.2 else alistGet k ps

def alistSet {V : Type} (k : String) (v : V) : List (String × V) → List (String × V)
  | [] => [(k, v)]
  | p :: ps => if p.1 = k then (k, v) :: ps else p :: alistSet k v ps

/-- `del d[k]` on a dict with unique keys, rendered as a filter (equivalent
since each key occurs at most once). -/
def alistErase {V : Type} (k : String) (l : List (String × V)) : List (String × V) :=
  l.filter (fun p => p.1 != k)

theorem alistGet_set_self {V : Type} (k : String) (v : V) (l : List (String × V)) :
    alistGet k (alistSet k v l) = some v := by
  induction l with
  | nil => simp [alistGet, alistSet]
  | cons p ps ih =>
    by_cases h : p.1 = k
    · simp [alistGet, alistSet, h]
    · simp [alistGet, alistSet, h, ih]

theorem alistGet_erase_self {V : Type} (k : String) (l : List (String × V)) :
    alistGet k (alistErase k l) = none := by
  induction l with
  | nil => simp [alistGet, alistErase]
  | cons p ps ih =>
    by_cases h : p.1 = k
    · simpa [alistErase, h] using ih
    · simpa [alistGet, alistErase, h] using ih

def SUMMARY_TIMEOUT : Nat := 300

def STUCK_CHECK_INTERVAL : Nat := 60

inductive SummaryState where
  | NONE
  | PENDING
  | SUMMARIZING
  | DONE
  | FAILED
  deriving DecidableEq, Repr

structure TrackedSession where
  session_id : String
  state : SummaryState
  last_activity : Nat
  summary_started_at : Option Nat
  deriving DecidableEq, Repr

def TrackedSession.mark_active (s : TrackedSession) (now : Nat) : TrackedSession :=
  let s1 := { s with last_activity := now }
  if s1.state = SummaryState.DONE ∨ s1.state = SummaryState.FAILED then
    { s1 with state := SummaryState.PENDING }
  else if s1.state = SummaryState.NONE then
    { s1 with state := SummaryState.PENDING }
  else s1

def TrackedSession.mark_summarizing (s : TrackedSession) (now : Nat) : TrackedSession :=
  { s with state := SummaryState.SUMMARIZING, summary_started_at := some now }

def TrackedSession.mark_done (s : TrackedSession) : TrackedSession :=
  { s with state := SummaryState.DONE, summary_started_at := none }

def TrackedSession.mark_failed (s : TrackedSession) : TrackedSession :=
  { s with state := SummaryState.FAILED, summary_started_at := none }

/-- Outcome of an awaited `summarize_callback` run: returned True, returned
False, or raised. -/
inductive Outcome where
  | success
  | failure
  | exn
  deriving DecidableEq, Repr

structure IdleTracker where
  sessions : List (String × TrackedSession)
  timers : List (String × Nat)
  next_timer : Nat
  shutdown : Bool
  inflight : List String
  deriving DecidableEq, Repr

def IdleTracker.mk0 : IdleTracker :=
  { sessions := [], timers := [], next_timer := 0, shutdown := false, inflight := [] }

/-- `IdleTracker.on_session_activity`: cancel any pending timer, update or
create the tracked session (not reset while SUMMARIZING), schedule a fresh
idle timer. -/
def on_session_activity (tr : IdleTracker) (session_id : String) (now : Nat) :
    IdleTracker :=
  if tr.shutdown then tr
  else
    let tr1 := { tr with timers := alistErase session_id tr.timers }
    let tr2 :=
      match alistGet session_id tr1.sessions with
      | some tracked =>
        if tracked.state ≠ SummaryState.SUMMARIZING then
          { tr1 with sessions := alistSet session_id (tracked.mark_active now) tr1.sessions }
        else tr1
      | none =>
        let fresh : TrackedSession :=
          { session_id := session_id, state := SummaryState.PENDING,
            last_activity := now, summary_started_at := none }
        { tr1 with sessions := alistSet session_id fresh tr1.sessions }
    { tr2 with timers := alistSet session_id tr2.next_timer tr2.timers,
               next_timer := tr2.next_timer + 1 }

/-- `_on_idle_timeout` up to the `await` of the summarize callback, run by
the timer task `tid`.  A cancelled task never reaches this point, so the
step has an effect only when `tid` is still the registered timer for the
session; `has_info` is whether `get_session_callback` finds the session.
Returns the new state and whether the summarize callback was invoked. -/
def on_idle_timeout_start (tr : IdleTracker) (session_id : String) (tid : Nat)
    (has_info : Bool) (now : Nat) : IdleTracker × Bool :=
  if tr.shutdown then (tr, false)
  else if alistGet session_id tr.timers ≠ some tid then (tr, false)
  else
    let tr1 := { tr with timers := alistErase session_id tr.timers }
    match alistGet session_id tr1.sessions with
    | none => (tr1, false)
    | some tracked =>
      if tracked.state ≠ SummaryState.PENDING then (tr1, false)
      else if has_info = false then (tr1, false)
      else
        ({ tr1 with
            sessions := alistSet session_id (tracked.mark_summarizing now) tr1.sessions,
            inflight := session_id :: tr1.inflight }, true)

/-- The rest of `_on_idle_timeout` after the awaited callback resolves:
mark the tracked session DONE on a True return, FAILED on a False return or
a raised exception. -/
def on_summarize_complete (tr : IdleTracker) (session_id : String) (out : Outcome) :
    IdleTracker :=
  if session_id ∈ tr.inflight then
    let tr1 := { tr with inflight := tr.inflight.erase session_id }
    match alistGet session_id tr1.sessions with
    | none => tr1
    | some tracked =>
      match out with
      | Outcome.success =>
        { tr1 with sessions := alistSet session_id tracked.mark_done tr1.sessions }
      | Outcome.failure =>
        { tr1 with sessions := alistSet session_id tracked.mark_failed tr1.sessions }
      | Outcome.exn =>
        { tr1 with sessions := alistSet session_id tracked.mark_failed tr1.sessions }
  else tr

/-- `_check_stuck_summarizations` at wall-clock `now`: any session that has
been SUMMARIZING for longer than `SUMMARY_TIMEOUT` is forced to FAILED
(`if elapsed and elapsed > SUMMARY_TIMEOUT`). -/
def check_stuck_summarizations (tr : IdleTracker) (now : Nat) : IdleTracker :=
  if tr.shutdown then tr
  else
    { tr with sessions := tr.sessions.map (fun p =>
        if p.2.state = SummaryState.SUMMARIZING then
          match p.2.summary_started_at with
          | some t =>
            if now - t ≠ 0 ∧ SUMMARY_TIMEOUT < now - t then (p.1, p.2.mark_failed) else p
          | none => p
        else p) }

theorem on_session_activity_unfold (tr : IdleTracker) (sid : String) (now : Nat)
    (h : tr.shutdown = false) :
    (on_session_activity tr sid now).timers
      = alistSet sid tr.next_timer (alistErase sid tr.timers)
    ∧ (on_session_activity tr sid now).next_timer = tr.next_timer + 1
    ∧ (on_session_activity tr sid now).shutdown = false
    ∧ (on_session_activity tr sid now).inflight = tr.inflight := by
  unfold on_session_activity
  rw [h]
  simp only [Bool.false_eq_true, if_false]
  split
  · split
    · exact ⟨rfl, rfl, rfl, rfl⟩
    · exact ⟨rfl, rfl, rfl, rfl⟩
  · exact ⟨rfl, rfl, rfl, rfl⟩

/-- C8: a tracked session that has been SUMMARIZING for longer than the
stuck timeout (300 s) is forced to FAILED by the background stuck check,
with no external call involved. -/
theorem stuck_summarizing_forced_failed (tr : IdleTracker) (sid : String)
    (tracked : TrackedSession) (t now : Nat)
    (hsd : tr.shutdown = false)
    (hmem : (sid, tracked) ∈ tr.sessions)
    (hst : tracked.state = SummaryState.SUMMARIZING)
    (hstart : tracked.summary_started_at = some t)
    (hlong : SUMMARY_TIMEOUT < now - t) :
    (sid, tracked.mark_failed) ∈ (check_stuck_summarizations tr now).sessions := by
  unfold check_stuck_summarizations
  rw [hsd]
  simp only [Bool.false_eq_true, if_false]
  have hne : now - t ≠ 0 := by
    simp [SUMMARY_TIMEOUT] at hlong
    omega
  have hf : (fun p : String × TrackedSession =>
      if p.2.state = SummaryState.SUMMARIZING then
        match p.2.summary_started_at with
        | some t0 =>
          if now - t0 ≠ 0 ∧ SUMMARY_TIMEOUT < now - t0 then (p.1, p.2.mark_failed) else p
        | none => p
      else p) (sid, tracked) = (sid, tracked.mark_failed) := by
    simp only [hst, if_pos rfl, hstart]
    have hcond : now - t ≠ 0 ∧ SUMMARY_TIMEOUT < now - t := ⟨hne, hlong⟩
    exact if_pos hcond
  have hm2 := List.mem_map_of_mem (fun p : String × TrackedSession =>
      if p.2.state = SummaryState.SUMMARIZING then
        match p.2.summary_started_at with
        | some t0 =>
          if now - t0 ≠ 0 ∧ SUMMARY_TIMEOUT < now - t0 then (p.1, p.2.mark_failed) else p
        | none => p
      else p) hmem
  rw [hf] at hm2
  exact hm2

theorem on_idle_timeout_start_run (tr : IdleTracker) (sid : String) (tid : Nat)
    (tracked : TrackedSession) (now : Nat)
    (hsd : tr.shutdown = false)
    (htm : alistGet sid tr.timers = some tid)
    (hses : alistGet sid tr.sessions = some tracked)
    (hpend : tracked.state = SummaryState.PENDING) :
    on_idle_timeout_start tr sid tid true now
      = ({ sessions := alistSet sid (tracked.mark_summarizing now) tr.sessions,
           timers := alistErase sid tr.timers,
           next_timer := tr.next_timer,
           shutdown := tr.shutdown,
           inflight := sid :: tr.inflight }, true) := by
  unfold on_idle_timeout_start
  simp only [hsd, Bool.false_eq_true, if_false, htm, ne_eq, not_true_eq_false, hses, hpend]
  rfl

theorem on_idle_timeout_start_skip (tr : IdleTracker) (sid : String) (tid : Nat)
    (tracked : TrackedSession) (info : Bool) (now : Nat)
    (hsd : tr.shutdown = false)
    (htm : alistGet sid tr.timers = some tid)
    (hses : alistGet sid tr.sessions = some tracked)
    (hpend : tracked.state ≠ SummaryState.PENDING) :
    on_idle_timeout_start tr sid tid info now
      = ({ tr with timers := alistErase sid tr.timers }, false) := by
  unfold on_idle_timeout_start
  simp only [hsd, Bool.false_eq_true, if_false, htm, ne_eq, not_true_eq_false, hses]
  rw [if_pos hpend]

theorem on_idle_timeout_start_stale (tr : IdleTracker) (sid : String) (tid : Nat)
    (info : Bool) (now : Nat)
    (hsd : tr.shutdown = false)
    (htm : alistGet sid tr.timers ≠ some tid) :
    on_idle_timeout_start tr sid tid info now = (tr, false) := by
  unfold on_idle_timeout_start
  simp only [hsd, Bool.false_eq_true, if_false, ne_eq]
  rw [if_pos htm]

theorem on_summarize_complete_run (tr : IdleTracker) (sid : String)
    (tracked : TrackedSession) (out : Outcome)
    (hin : sid ∈ tr.inflight)
    (hses : alistGet sid tr.sessions = some tracked) :
    (alistGet sid (on_summarize_complete tr sid out).sessions).map TrackedSession.state
      = some (match out with
              | Outcome.success => SummaryState.DONE
              | Outcome.failure => SummaryState.FAILED
              | Outcome.exn => SummaryState.FAILED) := by
  unfold on_summarize_complete
  rw [if_pos hin]
  simp only [hses]
  cases out <;>
    simp [alistGet_set_self, TrackedSession.mark_done, TrackedSession.mark_failed]

/-- C7: every activity event replaces the pending idle timer with a fresh
one, so only the latest timer of a burst can fire (a stale timer id is a
complete no-op); when the surviving timer fires on a PENDING session whose
info is available the summarize callback is invoked exactly once — firing
anything for that session again without new activity invokes nothing — and
the awaited outcome sets DONE on a True return and FAILED on a False return
or an exception; a timer that fires when the session's state is not PENDING
changes no session state and invokes no callback. -/
theorem idle_timer_lifecycle :
    (∀ (tr : IdleTracker) (sid : String) (now : Nat),
      tr.shutdown = false →
      alistGet sid (on_session_activity tr sid now).timers = some tr.next_timer
      ∧ ∀ tid, tid ≠ tr.next_timer → ∀ (info : Bool) (now2 : Nat),
          on_idle_timeout_start (on_session_activity tr sid now) sid tid info now2
            = (on_session_activity tr sid now, false))
    ∧ (∀ (tr : IdleTracker) (sid : String) (tid : Nat) (tracked : TrackedSession)
        (now : Nat),
      tr.shutdown = false →
      alistGet sid tr.timers = some tid →
      alistGet sid tr.sessions = some tracked →
      tracked.state = SummaryState.PENDING →
      (on_idle_timeout_start tr sid tid true now).2 = true
      ∧ alistGet sid (on_idle_timeout_start tr sid tid true now).1.sessions
          = some (tracked.mark_summarizing now)
      ∧ alistGet sid (on_idle_timeout_start tr sid tid true now).1.timers = none
      ∧ (∀ (tid2 : Nat) (info : Bool) (now2 : Nat),
          on_idle_timeout_start (on_idle_timeout_start tr sid tid true now).1 sid tid2
              info now2
            = ((on_idle_timeout_start tr sid tid true now).1, false))
      ∧ (alistGet sid (on_summarize_complete (on_idle_timeout_start tr sid tid true now).1
            sid Outcome.success).sessions).map TrackedSession.state
          = some SummaryState.DONE
      ∧ (alistGet sid (on_summarize_complete (on_idle_timeout_start tr sid tid true now).1
            sid Outcome.failure).sessions).map TrackedSession.state
          = some SummaryState.FAILED
      ∧ (alistGet sid (on_summarize_complete (on_idle_timeout_start tr sid tid true now).1
            sid Outcome.exn).sessions).map TrackedSession.state
          = some SummaryState.FAILED)
    ∧ (∀ (tr : IdleTracker) (sid : String) (tid : Nat) (tracked : TrackedSession)
        (info : Bool) (now : Nat),
      tr.shutdown = false →
      alistGet sid tr.timers = some tid →
      alistGet sid tr.sessions = some tracked →
      tracked.state ≠ SummaryState.PENDING →
      (on_idle_timeout_start tr sid tid info now).1.sessions = tr.sessions
      ∧ (on_idle_timeout_start tr sid tid info now).2 = false) := by
  refine ⟨?_, ?_, ?_⟩
  · intro tr sid now hsd
    obtain ⟨ht, hn, hs, hi⟩ := on_session_activity_unfold tr sid now hsd
    refine ⟨by rw [ht, alistGet_set_self], ?_⟩
    intro tid htid info now2
    apply on_idle_timeout_start_stale _ _ _ _ _ hs
    rw [ht, alistGet_set_self]
    intro he
    exact htid (Option.some.inj he).symm
  · intro tr sid tid tracked now hsd htm hses hpend
    rw [on_idle_timeout_start_run tr sid tid tracked now hsd htm hses hpend]
    refine ⟨rfl, ?_, ?_, ?_, ?_, ?_, ?_⟩
    · show alistGet sid (alistSet sid (tracked.mark_summarizing now) tr.sessions) = _
      exact alistGet_set_self _ _ _
    · show alistGet sid (alistErase sid tr.timers) = none
      exact alistGet_erase_self _ _
    · intro tid2 info now2
      refine on_idle_timeout_start_stale _ sid tid2 info now2 ?_ ?_
      · exact hsd
      · show alistGet sid (alistErase sid tr.timers) ≠ some tid2
        rw [alistGet_erase_self]
        simp
    · apply on_summarize_complete_run
      · show sid ∈ sid :: tr.inflight
        exact List.mem_cons_self sid tr.inflight
      · show alistGet sid (alistSet sid (tracked.mark_summarizing now) tr.sessions) = _
        exact alistGet_set_self _ _ _
    · apply on_summarize_complete_run
      · show sid ∈ sid :: tr.inflight
        exact List.mem_cons_self sid tr.inflight
      · show alistGet sid (alistSet sid (tracked.mark_summarizing now) tr.sessions) = _
        exact alistGet_set_self _ _ _
    · apply on_summarize_complete_run
      · show sid ∈ sid :: tr.inflight
        exact List.mem_cons_self sid tr.inflight
      · show alistGet sid (alistSet sid (tracked.mark_summarizing now) tr.sessions) = _
        exact alistGet_set_self _ _ _
  · intro tr sid tid tracked info now hsd htm hses hpend
    rw [on_idle_timeout_start_skip tr sid tid tracked info now hsd htm hses hpend]
    exact ⟨rfl, rfl⟩

/-- C2 (amended): activity on a session that is SUMMARIZING does not touch
the tracked session at all (the run is not interrupted) though a new idle
timer is scheduled; when the run completes, the outcome sets DONE (True) or
FAILED (False / exception) — not PENDING; the timer scheduled by the
mid-run activity is a no-op at fire time because the state is then
DONE/FAILED; a fresh PENDING cycle starts only when `on_activity` fires
again after completion. -/
theorem summarizing_activity_behavior :
    (∀ (tr : IdleTracker) (sid : String) (now : Nat) (tracked : TrackedSession),
      tr.shutdown = false →
      alistGet sid tr.sessions = some tracked →
      tracked.state = SummaryState.SUMMARIZING →
      alistGet sid (on_session_activity tr sid now).sessions = some tracked
      ∧ alistGet sid (on_session_activity tr sid now).timers = some tr.next_timer)
    ∧ (∀ (tr : IdleTracker) (sid : String) (tracked : TrackedSession) (out : Outcome),
      sid ∈ tr.inflight →
      alistGet sid tr.sessions = some tracked →
      (alistGet sid (on_summarize_complete tr sid out).sessions).map TrackedSession.state
        = some (match out with
                | Outcome.success => SummaryState.DONE
                | Outcome.failure => SummaryState.FAILED
                | Outcome.exn => SummaryState.FAILED)
      ∧ (match out with
         | Outcome.success => SummaryState.DONE
         | Outcome.failure => SummaryState.FAILED
         | Outcome.exn => SummaryState.FAILED) ≠ SummaryState.PENDING)
    ∧ (∀ (tr : IdleTracker) (sid : String) (tid : Nat) (tracked : TrackedSession)
        (info : Bool) (now : Nat),
      tr.shutdown = false →
      alistGet sid tr.timers = some tid →
      alistGet sid tr.sessions = some tracked →
      (tracked.state = SummaryState.DONE ∨ tracked.state = SummaryState.FAILED) →
      (on_idle_timeout_start tr sid tid info now).1.sessions = tr.sessions
      ∧ (on_idle_timeout_start tr sid tid info now).2 = false)
    ∧ (∀ (tr : IdleTracker) (sid : String) (now : Nat) (tracked : TrackedSession),
      tr.shutdown = false →
      alistGet sid tr.sessions = some tracked →
      (tracked.state = SummaryState.DONE ∨ tracked.state = SummaryState.FAILED) →
      (alistGet sid (on_session_activity tr sid now).sessions).map TrackedSession.state
        = some SummaryState.PENDING) := by
  refine ⟨?_, ?_, ?_, ?_⟩
  · intro tr sid now tracked hsd hses hst
    unfold on_session_activity
    simp only [hsd, Bool.false_eq_true, if_false, hses, hst, ne_eq, not_true_eq_false]
    constructor
    · trivial
    · apply alistGet_set_self
  · intro tr sid tracked out hin hses
    refine ⟨on_summarize_complete_run tr sid tracked out hin hses, ?_⟩
    cases out <;> simp
  · intro tr sid tid tracked info now hsd htm hses hst
    have hne : tracked.state ≠ SummaryState.PENDING := by
      rcases hst with h | h <;> simp [h]
    rw [on_idle_timeout_start_skip tr sid tid tracked info now hsd htm hses hne]
    exact ⟨rfl, rfl⟩
  · intro tr sid now tracked hsd hses hst
    unfold on_session_activity
    have hne : tracked.state ≠ SummaryState.SUMMARIZING := by
      rcases hst with h | h <;> simp [h]
    simp only [hsd, Bool.false_eq_true, if_false, hses, ne_eq, hne, not_false_eq_true,
      if_true]
    rw [alistGet_set_self]
    unfold TrackedSession.mark_active
    rcases hst with h | h <;> simp [h]

/-- The concrete trace refuting the fresh-PENDING claim: activity, idle
fire, activity during the run, successful completion, and the mid-run
timer firing. -/
def c2t1 : IdleTracker := on_session_activity IdleTracker.mk0 "s" 0

def c2t2 : IdleTracker := (on_idle_timeout_start c2t1 "s" 0 true 5).1

def c2t3 : IdleTracker := on_session_activity c2t2 "s" 6

def c2t4 : IdleTracker := on_summarize_complete c2t3 "s" Outcome.success

def c2r5 : IdleTracker × Bool := on_idle_timeout_start c2t4 "s" 1 true 100

/-- C2 counterexample: new activity arrives while the session is
SUMMARIZING and the run then completes successfully, yet no fresh PENDING
cycle follows — the state is DONE, and the idle timer scheduled by that
activity fires as a no-op (no callback, state still DONE). -/
theorem summarizing_no_fresh_pending_counterexample :
    ((alistGet "s" c2t2.sessions).map TrackedSession.state = some SummaryState.SUMMARIZING)
    ∧ ((alistGet "s" c2t3.sessions).map TrackedSession.state = some SummaryState.SUMMARIZING)
    ∧ ((alistGet "s" c2t4.sessions).map TrackedSession.state = some SummaryState.DONE)
    ∧ c2r5.2 = false
    ∧ ((alistGet "s" c2r5.1.sessions).map TrackedSession.state = some SummaryState.DONE)
    ∧ some SummaryState.DONE ≠ some SummaryState.PENDING := by
  refine ⟨rfl, rfl, rfl, rfl, rfl, by simp⟩

/-- C2 witness: the amended behavior applied to the concrete trace at the
moment the session is SUMMARIZING. -/
theorem summarizing_activity_behavior_witness :
    alistGet "s" (on_session_activity c2t2 "s" 6).sessions
      = some { session_id := "s", state := SummaryState.SUMMARIZING,
               last_activity := 0, summary_started_at := some 5 } :=
  (summarizing_activity_behavior.1 c2t2 "s" 6
      { session_id := "s", state := SummaryState.SUMMARIZING,
        last_activity := 0, summary_started_at := some 5 }
      rfl rfl rfl).1

/-- C7 witness: the lifecycle theorem applied to the concrete tracker in
which session "s" is PENDING with live timer 0. -/
theorem idle_timer_lifecycle_witness :
    (on_idle_timeout_start c2t1 "s" 0 true 5).2 = true
    ∧ alistGet "s" (on_idle_timeout_start c2t1 "s" 0 true 5).1.timers = none :=
  have h := idle_timer_lifecycle.2.1 c2t1 "s" 0
    { session_id := "s", state := SummaryState.PENDING,
      last_activity := 0, summary_started_at := none } 5
    rfl rfl rfl rfl
  ⟨h.1, h.2.2.1⟩

/-- A tracker with one session stuck in SUMMARIZING since tick 0. -/
def c8tr : IdleTracker :=
  { sessions := [("x", { session_id := "x", state := SummaryState.SUMMARIZING,
                         last_activity := 0, summary_started_at := some 0 })],
    timers := [], next_timer := 0, shutdown := false, inflight := [] }

/-- C8 witness: the stuck check at tick 301 forces the stuck session to
FAILED. -/
theorem stuck_summarizing_forced_failed_witness :
    ("x", TrackedSession.mark_failed
        { session_id := "x", state := SummaryState.SUMMARIZING,
          last_activity := 0, summary_started_at := some 0 })
      ∈ (check_stuck_summarizations c8tr 301).sessions :=
  stuck_summarizing_forced_failed c8tr "x"
    { session_id := "x", state := SummaryState.SUMMARIZING,
      last_activity := 0, summary_started_at := some 0 } 0 301
    rfl (List.mem_cons_self _ _) rfl rfl (by decide)

/-! ## Usage deduplication (backends/claude_code/pricing.py)

`get_session_token_usage` over the parsed line stream.  A line is either
malformed JSON (skipped), a non-assistant entry (skipped) or an assistant
record carrying the fields the loop reads: `message.usage` (`none` for a
missing or empty dict, matching `if not usage: continue`), `message.model`,
`message.id` and the top-level `requestId`. -/

structure Usage where
  input_tokens : Nat
  output_tokens : Nat
  cache_creation_input_tokens : Nat
  cache_read_input_tokens : Nat
  deriving DecidableEq, Repr

structure AssistantRecord where
  usage : Option Usage
  model : Option String
  msg_id : Option String
  request_id : Option String
  deriving DecidableEq, Repr

inductive Line where
  | malformed
  | other
  | assistant (r : AssistantRecord)
  deriving DecidableEq, Repr

/-- Python truthiness of an optional string (`None` and `""` are falsy). -/
def truthy : Option String → Bool
  | none => false
  | some s => s != ""

/-- One iteration of the dedup loop body on an assistant record: dedup map
entries are `(usage, model, output_tokens)` keyed by `"{msg_id}:{request_id}"`
or by a unique synthetic `no_dedup_<n>` key. -/
def dedupStep (m : List (String × (Usage × Option String × Nat)))
    (r : AssistantRecord) : List (String × (Usage × Option String × Nat)) :=
  match r.usage with
  | none => m
  | some usage =>
    let output_tokens := usage.output_tokens
    if truthy r.msg_id && truthy r.request_id then
      let dedup_hash := r.msg_id.getD "" ++ ":" ++ r.request_id.getD ""
      match alistGet dedup_hash m with
      | none => alistSet dedup_hash (usage, r.model, output_tokens) m
      | some existing =>
        if existing.2.2 < output_tokens then
          alistSet dedup_hash (usage, r.model, output_tokens) m
        else m
    else
      alistSet ("no_dedup_" ++ toString m.length) (usage, r.model, output_tokens) m

def processLine (m : List (String × (Usage × Option String × Nat))) :
    Line → List (String × (Usage × Option String × Nat))
  | Line.malformed => m
  | Line.other => m
  | Line.assistant r => dedupStep m r

/-- Accumulated totals.  Modelled from the spec: the `TokenUsage` dataclass
is defined in `backends/protocol.py`, which is absent from the sources;
per the spec the totals sum the retained entries' input, output and cache
token fields and count messages.  The USD cost and model list (float
pricing from an external price table) are outside this model. -/
structure TokenUsage where
  input_tokens : Nat := 0
  output_tokens : Nat := 0
  cache_creation_tokens : Nat := 0
  cache_read_tokens : Nat := 0
  message_count : Nat := 0
  deriving DecidableEq, Repr

/-- `get_session_token_usage`: build the dedup map in file order, then sum
the retained entries. -/
def get_session_token_usage (lines : List Line) : TokenUsage :=
  let m := lines.foldl processLine []
  m.foldl (fun acc p =>
    { acc with
      input_tokens := acc.input_tokens + p.2.1.input_tokens,
      output_tokens := acc.output_tokens + p.2.1.output_tokens,
      cache_creation_tokens := acc.cache_creation_tokens + p.2.1.cache_creation_input_tokens,
      cache_read_tokens := acc.cache_read_tokens + p.2.1.cache_read_input_tokens,
      message_count := acc.message_count + 1 }) {}

/-- What `dedupStep` does to the retained entry of a key. -/
def pickRec (v : Usage × Option String × Nat) (r : AssistantRecord) :
    Usage × Option String × Nat :=
  match r.usage with
  | some u => if v.2.2 < u.output_tokens then (u, r.model, u.output_tokens) else v
  | none => v

/-- The output tokens a record contributes. -/
def recOut (r : AssistantRecord) : Nat :=
  match r.usage with
  | some u => u.output_tokens
  | none => 0

theorem dedupStep_shared (mid rid : String) (hm : mid ≠ "") (hr : rid ≠ "")
    (v : Usage × Option String × Nat) (r : AssistantRecord) (u : Usage)
    (hmsg : r.msg_id = some mid) (hreq : r.request_id = some rid)
    (hu : r.usage = some u) :
    dedupStep [(mid ++ ":" ++ rid, v)] r = [(mid ++ ":" ++ rid, pickRec v r)] := by
  have hcond : (mid != "" && rid != "") = true := by
    simp [bne_iff_ne, hm, hr]
  have hget : alistGet (mid ++ ":" ++ rid) [(mid ++ ":" ++ rid, v)] = some v := by
    simp [alistGet]
  unfold dedupStep
  rw [hu]
  simp only [hmsg, hreq, truthy, Option.getD_some]
  rw [if_pos hcond, hget]
  unfold pickRec
  rw [hu]
  show (if v.2.2 < u.output_tokens then
      alistSet (mid ++ ":" ++ rid) (u, r.model, u.output_tokens) [(mid ++ ":" ++ rid, v)]
    else [(mid ++ ":" ++ rid, v)])
    = [(mid ++ ":" ++ rid,
        if v.2.2 < u.output_tokens then (u, r.model, u.output_tokens) else v)]
  by_cases hlt : v.2.2 < u.output_tokens
  · rw [if_pos hlt, if_pos hlt]
    simp [alistSet]
  · rw [if_neg hlt, if_neg hlt]

theorem dedupFold_shared (mid rid : String) (hm : mid ≠ "") (hr : rid ≠ "")
    (rs : List AssistantRecord) :
    ∀ v : Usage × Option String × Nat,
      (∀ r ∈ rs, r.msg_id = some mid ∧ r.request_id = some rid ∧ r.usage.isSome) →
      (rs.map Line.assistant).foldl processLine [(mid ++ ":" ++ rid, v)]
        = [(mid ++ ":" ++ rid, rs.foldl pickRec v)] := by
  induction rs with
  | nil => intro v _; rfl
  | cons r rs ih =>
    intro v hall
    obtain ⟨hmsg, hreq, hus⟩ := hall r (List.mem_cons_self r rs)
    cases hu : r.usage with
    | none => rw [hu] at hus; exact absurd hus (by simp)
    | some u =>
      simp only [List.map_cons, List.foldl_cons]
      have h1 : processLine [(mid ++ ":" ++ rid, v)] (Line.assistant r)
          = [(mid ++ ":" ++ rid, pickRec v r)] :=
        dedupStep_shared mid rid hm hr v r u hmsg hreq hu
      rw [h1, ih (pickRec v r) (fun x hx => hall x (List.mem_cons_of_mem r hx))]

theorem pickFold_out (rs : List AssistantRecord) :
    ∀ v : Usage × Option String × Nat,
      (rs.foldl pickRec v).2.2 = rs.foldl (fun a r => max a (recOut r)) v.2.2 := by
  induction rs with
  | nil => intro v; rfl
  | cons r rs ih =>
    intro v
    simp only [List.foldl_cons]
    rw [ih]
    congr 1
    unfold pickRec recOut
    cases r.usage with
    | none => simp
    | some u =>
      by_cases hlt : v.2.2 < u.output_tokens
      · simp only [hlt, if_true]
        omega
      · simp only [hlt, if_false]
        omega

theorem pickFold_consistent (rs : List AssistantRecord) :
    ∀ v : Usage × Option String × Nat, v.2.2 = v.1.output_tokens →
      (rs.foldl pickRec v).2.2 = (rs.foldl pickRec v).1.output_tokens := by
  induction rs with
  | nil => intro v hv; exact hv
  | cons r rs ih =>
    intro v hv
    simp only [List.foldl_cons]
    apply ih
    unfold pickRec
    cases r.usage with
    | none => exact hv
    | some u =>
      by_cases hlt : v.2.2 < u.output_tokens
      · simp only [hlt, if_true]
      · simp only [hlt, if_false]
        exact hv

def rec5 : AssistantRecord :=
  { usage := some { input_tokens := 1, output_tokens := 5,
                    cache_creation_input_tokens := 0, cache_read_input_tokens := 0 },
    model := some "m", msg_id := some "id", request_id := some "req" }

def rec40 : AssistantRecord :=
  { usage := some { input_tokens := 2, output_tokens := 40,
                    cache_creation_input_tokens := 0, cache_read_input_tokens := 0 },
    model := some "m", msg_id := some "id", request_id := some "req" }

/-- C3: among assistant usage records sharing one dedup key
`(message_id, request_id)`, exactly one entry is retained; appending a
further record replaces it only when its output_tokens are strictly
greater (ties keep the earlier entry), so the retained output_tokens equal
the maximum over the records regardless of arrival order; in particular
records with output_tokens 5 and 40 contribute 40 — not 45 — in either
order. -/
theorem usage_dedup_strict_max (mid rid : String) (hm : mid ≠ "") (hr : rid ≠ "")
    (r0 : AssistantRecord) (rs : List AssistantRecord) (u0 : Usage)
    (h0m : r0.msg_id = some mid) (h0r : r0.request_id = some rid)
    (h0u : r0.usage = some u0)
    (hall : ∀ r ∈ rs, r.msg_id = some mid ∧ r.request_id = some rid ∧ r.usage.isSome) :
    (∃ v : Usage × Option String × Nat,
      ((r0 :: rs).map Line.assistant).foldl processLine [] = [(mid ++ ":" ++ rid, v)]
      ∧ v.2.2 = v.1.output_tokens
      ∧ v.2.2 = (r0 :: rs).foldl (fun a r => max a (recOut r)) 0
      ∧ (get_session_token_usage ((r0 :: rs).map Line.assistant)).output_tokens
          = v.1.output_tokens)
    ∧ (∀ (v : Usage × Option String × Nat) (r : AssistantRecord) (u : Usage),
        r.msg_id = some mid → r.request_id = some rid → r.usage = some u →
        dedupStep [(mid ++ ":" ++ rid, v)] r
          = [(mid ++ ":" ++ rid,
              if v.2.2 < u.output_tokens then (u, r.model, u.output_tokens) else v)])
    ∧ (get_session_token_usage [Line.assistant rec5, Line.assistant rec40]).output_tokens
        = 40
    ∧ (get_session_token_usage [Line.assistant rec40, Line.assistant rec5]).output_tokens
        = 40 := by
  have hcond : (mid != "" && rid != "") = true := by
    simp [bne_iff_ne, hm, hr]
  have hfirst : processLine [] (Line.assistant r0)
      = [(mid ++ ":" ++ rid, (u0, r0.model, u0.output_tokens))] := by
    show dedupStep [] r0 = _
    unfold dedupStep
    rw [h0u]
    simp only [h0m, h0r, truthy, Option.getD_some]
    rw [if_pos hcond]
    rfl
  refine ⟨?_, ?_, ?_, ?_⟩
  · refine ⟨rs.foldl pickRec (u0, r0.model, u0.output_tokens), ?_, ?_, ?_, ?_⟩
    · simp only [List.map_cons, List.foldl_cons]
      rw [hfirst, dedupFold_shared mid rid hm hr rs _ hall]
    · exact pickFold_consistent rs _ rfl
    · rw [pickFold_out]
      simp only [List.foldl_cons]
      have : recOut r0 = u0.output_tokens := by
        unfold recOut
        rw [h0u]
      rw [← this, Nat.zero_max]
    · unfold get_session_token_usage
      simp only [List.map_cons, List.foldl_cons]
      rw [hfirst, dedupFold_shared mid rid hm hr rs _ hall]
      show 0 + (rs.foldl pickRec (u0, r0.model, u0.output_tokens)).1.output_tokens = _
      omega
  · intro v r u hmsg hreq hu
    rw [dedupStep_shared mid rid hm hr v r u hmsg hreq hu]
    unfold pickRec
    rw [hu]
  · rfl
  · rfl

/-- C3 witness: the dedup theorem applied at the concrete 5/40 records
under the shared key `id:req`. -/
theorem usage_dedup_strict_max_witness :
    (∃ v : Usage × Option String × Nat,
      (([rec5, rec40].map Line.assistant).foldl processLine []
        = [("id" ++ ":" ++ "req", v)])
      ∧ v.2.2 = v.1.output_tokens
      ∧ v.2.2 = [rec5, rec40].foldl (fun a r => max a (recOut r)) 0
      ∧ (get_session_token_usage ([rec5, rec40].map Line.assistant)).output_tokens
          = v.1.output_tokens) :=
  (usage_dedup_strict_max "id" "req" (by decide) (by decide) rec5 [rec40]
      { input_tokens := 1, output_tokens := 5,
        cache_creation_input_tokens := 0, cache_read_input_tokens := 0 }
      rfl rfl rfl (by intro r hrr; simp at hrr; subst hrr; exact ⟨rfl, rfl, rfl⟩)).1

/-! ## Broadcast (claude_code_live/server.py, broadcast_event)

Subscriber queues are `asyncio.Queue(maxsize)` instances; the numeric id
models Python object identity within the `_clients` set (ids are distinct).
`put_nowait` raises `QueueFull` when the queue is full — a positive
`maxsize` already holding `maxsize` items; `maxsize = 0` means unbounded. -/

structure Event where
  event : String
  data : String
  deriving DecidableEq, Repr

structure ClientQueue where
  maxsize : Nat
  items : List Event
  deriving DecidableEq, Repr

def queue_full (q : ClientQueue) : Bool :=
  0 < q.maxsize && q.maxsize ≤ q.items.length

/-- `queue.put_nowait(e)`; `none` models the raised `QueueFull`. -/
def put_nowait (q : ClientQueue) (e : Event) : Option ClientQueue :=
  if queue_full q then none else some { q with items := q.items ++ [e] }

/-- `broadcast_event`: one pass attempting a non-blocking enqueue into every
queue while collecting the full ones as `dead_clients`, then a pass
discarding every dead subscriber from the client set. -/
def broadcast_event (clients : List (Nat × ClientQueue)) (e : Event) :
    List (Nat × ClientQueue) :=
  let dead := (clients.filter (fun c => queue_full c.2)).map Prod.fst
  let updated := clients.map (fun c =>
    match put_nowait c.2 e with
    | some q2 => (c.1, q2)
    | none => c)
  updated.filter (fun c => !(dead.contains c.1))

theorem broadcast_event_eq (clients : List (Nat × ClientQueue)) (e : Event) :
    broadcast_event clients e
      = (clients.map (fun c =>
          match put_nowait c.2 e with
          | some q2 => (c.1, q2)
          | none => c)).filter
          (fun c =>
            !(((clients.filter (fun c => queue_full c.2)).map Prod.fst).contains c.1)) := rfl

theorem enq_fst (e : Event) (c : Nat × ClientQueue) :
    (match put_nowait c.2 e with | some q2 => (c.1, q2) | none => c).1 = c.1 := by
  unfold put_nowait
  by_cases h : queue_full c.2
  · simp [h]
  · simp [h]

theorem updated_ids (e : Event) (cs : List (Nat × ClientQueue)) :
    (cs.map (fun c =>
        match put_nowait c.2 e with
        | some q2 => (c.1, q2)
        | none => c)).map Prod.fst
      = cs.map Prod.fst := by
  rw [List.map_map]
  apply List.map_congr_left
  intro c _
  exact enq_fst e c

theorem filter_dead_cons (a : Nat) (D : List Nat) (U : List (Nat × ClientQueue))
    (ha : a ∉ U.map Prod.fst) :
    U.filter (fun x => !(x.1 == a || D.contains x.1))
      = U.filter (fun x => !(D.contains x.1)) := by
  induction U with
  | nil => rfl
  | cons u us ih =>
    have hua : (u.1 == a) = false := by
      have : u.1 ≠ a := by
        intro hh
        exact ha (by simp [← hh])
      simpa using this
    have hne : a ∉ us.map Prod.fst := fun hh => ha (by simp [hh])
    simp only [List.filter_cons, hua, Bool.false_or]
    rw [ih hne]

theorem dead_subset (cs : List (Nat × ClientQueue)) (x : Nat)
    (hx : x ∈ (cs.filter (fun c => queue_full c.2)).map Prod.fst) :
    x ∈ cs.map Prod.fst := by
  rcases List.mem_map.mp hx with ⟨c, hc, rfl⟩
  exact List.mem_map_of_mem _ (List.mem_of_mem_filter hc)

theorem broadcast_characterization (e : Event) (clients : List (Nat × ClientQueue))
    (hnd : (clients.map Prod.fst).Nodup) :
    broadcast_event clients e
      = (clients.filter (fun c => !(queue_full c.2))).map
          (fun c => (c.1, { c.2 with items := c.2.items ++ [e] })) := by
  induction clients with
  | nil => rfl
  | cons c cs ih =>
    rw [List.map_cons] at hnd
    have hni : c.1 ∉ cs.map Prod.fst := (List.nodup_cons.mp hnd).1
    have hnd' : (cs.map Prod.fst).Nodup := (List.nodup_cons.mp hnd).2
    have ihr := ih hnd'
    rw [broadcast_event_eq] at ihr ⊢
    simp only [List.map_cons, List.filter_cons]
    by_cases hful : queue_full c.2
    · have henq : (match put_nowait c.2 e with | some q2 => (c.1, q2) | none => c) = c := by
        unfold put_nowait
        rw [if_pos hful]
      rw [henq, if_pos hful]
      simp only [List.map_cons]
      simp only [List.contains_cons, beq_self_eq_true, Bool.true_or, Bool.not_true,
        Bool.false_eq_true, if_false]
      rw [if_neg (show ¬((!queue_full c.2) = true) by simp [hful])]
      have hnotin : c.1 ∉ (cs.map (fun c =>
          match put_nowait c.2 e with
          | some q2 => (c.1, q2)
          | none => c)).map Prod.fst := by
        rw [updated_ids]
        exact hni
      rw [filter_dead_cons c.1 _ _ hnotin]
      exact ihr
    · have henq : (match put_nowait c.2 e with | some q2 => (c.1, q2) | none => c)
          = (c.1, { c.2 with items := c.2.items ++ [e] }) := by
        unfold put_nowait
        rw [if_neg hful]
      rw [henq, if_neg hful]
      rw [if_pos (show (!queue_full c.2) = true by simp [hful])]
      have hnotdead : (((cs.filter (fun c => queue_full c.2)).map Prod.fst).contains c.1)
          = false := by
        by_contra hcc
        have hmem : c.1 ∈ (cs.filter (fun c => queue_full c.2)).map Prod.fst := by
          have hb := Bool.of_not_eq_false hcc
          simpa [List.contains_iff_exists_mem_beq] using hb
        exact hni (dead_subset cs c.1 hmem)
      simp only [hnotdead, Bool.not_false, if_true, List.map_cons]
      rw [ihr]

/-- C9: publishing attempts a non-blocking enqueue into every subscriber
queue; every queue that is full at publish time is dropped from the
subscriber set (treated as a dead subscriber) and every non-full queue
receives the event appended, the producer never blocking (the operation is
a total function of the queue states). -/
theorem broadcast_no_backpressure (clients : List (Nat × ClientQueue)) (e : Event)
    (hnd : (clients.map Prod.fst).Nodup) :
    broadcast_event clients e
      = (clients.filter (fun c => !(queue_full c.2))).map
          (fun c => (c.1, { c.2 with items := c.2.items ++ [e] }))
    ∧ (∀ c ∈ clients, queue_full c.2 = true → ∀ q, (c.1, q) ∉ broadcast_event clients e)
    ∧ (∀ c ∈ clients, queue_full c.2 = false →
        (c.1, { c.2 with items := c.2.items ++ [e] }) ∈ broadcast_event clients e) := by
  have hchar := broadcast_characterization e clients hnd
  refine ⟨hchar, ?_, ?_⟩
  · intro c hc hful q hmem
    rw [hchar] at hmem
    rcases List.mem_map.mp hmem with ⟨c', hc', heq⟩
    have hid0 := congrArg Prod.fst heq
    simp only [] at hid0
    have hid : c'.1 = c.1 := hid0
    have hc'mem : c' ∈ clients := List.mem_of_mem_filter hc'
    have hc'full : queue_full c'.2 = false := by
      have := List.of_mem_filter hc'
      simpa using this
    have : c' = c :=
      List.inj_on_of_nodup_map hnd hc'mem hc hid
    rw [this] at hc'full
    rw [hful] at hc'full
    exact Bool.noConfusion hc'full
  · intro c hc hful
    rw [hchar]
    exact List.mem_map_of_mem _ (List.mem_filter.mpr ⟨hc, by simp [hful]⟩)

/-- C9 witness: two subscribers, one with room and one full; publishing
keeps the roomy one (event appended) and drops the full one. -/
theorem broadcast_no_backpressure_witness :
    broadcast_event [(0, { maxsize := 2, items := [] }),
        (1, { maxsize := 1, items := [{ event := "message", data := "old" }] })]
        { event := "message", data := "d" }
      = [(0, { maxsize := 2, items := [{ event := "message", data := "d" }] })] := by
  have h := (broadcast_no_backpressure
      [(0, { maxsize := 2, items := [] }),
       (1, { maxsize := 1, items := [{ event := "message", data := "old" }] })]
      { event := "message", data := "d" } (by decide)).1
  rw [h]
  rfl

/-- The concrete parser for the C4 witness: accepts exactly the line "ab"
as a user entry. -/
def parseAB : List Char → Option Entry :=
  fun l =>
    if l = ['a', 'b'] then some { type := some "user", content := Content.blocks [] }
    else none

/-- C4 witness: the buffering theorem applied to an empty file, the
partial append "a" and the completing append "b\n". -/
theorem partial_line_buffering_witness :
    (read_new_lines parseAB ([] ++ ['a']) SessionTailer.mk0).1 = []
    ∧ (read_new_lines parseAB ([] ++ ['a']) SessionTailer.mk0).2.buffer = ['a']
    ∧ (read_new_lines parseAB (([] ++ ['a']) ++ (['b'] ++ ['\n']))
        (read_new_lines parseAB ([] ++ ['a']) SessionTailer.mk0).2).1
        = [{ type := some "user", content := Content.blocks [] }]
    ∧ (read_new_lines parseAB (([] ++ ['a']) ++ (['b'] ++ ['\n']))
        (read_new_lines parseAB ([] ++ ['a']) SessionTailer.mk0).2).2.buffer = []
    ∧ (read_new_lines parseAB (([] ++ ['a']) ++ (['b'] ++ ['\n']))
        (read_new_lines parseAB (([] ++ ['a']) ++ (['b'] ++ ['\n']))
          (read_new_lines parseAB ([] ++ ['a']) SessionTailer.mk0).2).2).1 = [] :=
  partial_line_buffering parseAB [] ['a'] ['b'] SessionTailer.mk0
    { type := some "user", content := Content.blocks [] }
    rfl rfl (by decide) (by decide) (by decide) (by decide)

end CCLive
